import Mathlib

/-!
Shallow embedding of `Video_Frame_Redundancy_Detection.py`: the frame
encoder (`frame_to_24int`), the bitwise similarity metric
(`is_similar_arr`) and the redundancy scanner (`find_redundant_ranges`),
together with proofs about the properties the design document states.

Modelling conventions: machine integers are `Nat` (the packed pixels all
stay below `2 ^ 24`, the numpy `uint32` view of a pixel is modelled by its
four little-endian bytes); Python floats are modelled as rationals; a
Python exception (a numpy `ValueError` or a `ZeroDivisionError`) is
modelled by `none`.
-/

/-- Number of 1-bits among the low `w` bits of `n`. -/
def popBits : Nat → Nat → Nat
  | 0, _ => 0
  | w + 1, n => n % 2 + popBits w (n / 2)

/-- The four bytes of a `uint32` value in little-endian order, as produced
by `xor.view(np.uint8)` on a little-endian platform (line 39 of the
source). Packed pixels are below `2 ^ 24`, so the fourth byte is `0`. -/
def bytesLE4 (v : Nat) : List Nat :=
  [v % 2 ^ 8, v / 2 ^ 8 % 2 ^ 8, v / 2 ^ 16 % 2 ^ 8, v / 2 ^ 24 % 2 ^ 8]

/-- The row sums of `np.unpackbits(xor.view(np.uint8)).reshape(-1, 24)`
(line 39): each row of 24 unpacked bits covers exactly three consecutive
bytes of the byte stream, so each row sum is the popcount of three bytes.
A trailing group of fewer than three bytes is dropped here; in the source
that situation makes `reshape` raise instead (see `is_similar_arr`). -/
def rowOnes : List Nat → List Nat
  | b0 :: b1 :: b2 :: rest => (popBits 8 b0 + popBits 8 b1 + popBits 8 b2) :: rowOnes rest
  | _ => []

/-- The byte stream of the elementwise XOR of two packed frames
(lines 38–39): `np.bitwise_xor(a, b).view(np.uint8)`. -/
def xorBytes (a b : List Nat) : List Nat :=
  (List.zipWith Nat.xor a b).flatMap bytesLE4

/-- `zeros = 24 - ones` (line 40), one entry per 24-bit row. -/
def zeroRows (a b : List Nat) : List Nat :=
  (rowOnes (xorBytes a b)).map (fun o => 24 - o)

/-- `matched = np.count_nonzero(zeros >= THRESHOLD_ZERO_BITS)` (line 41),
with the threshold an explicit parameter. -/
def matched_count (a b : List Nat) (t : Nat) : Nat :=
  (zeroRows a b).countP (fun z => decide (t ≤ z))

/-- `is_similar_arr` (lines 36–44), with the global threshold (`17` in the
source) and ratio (`0.70`) as explicit parameters.  `none` models a raised
exception: a shape mismatch in `np.bitwise_xor` (mismatched lengths), the
`reshape(-1, 24)` raising when the unpacked bit count `32 * len(a)` is not
a multiple of 24, or the `ZeroDivisionError` when `zeros.size` is 0. -/
def is_similar_arr (a b : List Nat) (t : Nat) (r : ℚ) : Option Bool :=
  if a.length ≠ b.length then none
  else if (xorBytes a b).length % 3 ≠ 0 then none
  else if (zeroRows a b).length = 0 then none
  else some (decide (r ≤ (matched_count a b t : ℚ) / ((zeroRows a b).length : ℚ)))

/-- The similarity predicate as §4.2 of the design document words it
(the reference semantics of claim C1): per pixel, count the zero bits
among the low 24 bits of `a[i] ^^^ b[i]`; a pixel is matched when it has
at least `t` zero bits, and the frames are similar when the matched
fraction of the total pixel count reaches `r`. -/
def is_similar_spec (a b : List Nat) (t : Nat) (r : ℚ) : Bool :=
  let zeros := (List.zipWith Nat.xor a b).map (fun x => 24 - popBits 24 x)
  decide (r ≤ ((zeros.countP (fun z => decide (t ≤ z)) : ℚ) / (a.length : ℚ)))

/-- One packed pixel: `(r << 16) | (g << 8) | b` (line 34). -/
def pack24 (p : Nat × Nat × Nat) : Nat :=
  (p.1 <<< 16) ||| ((p.2.1 <<< 8) ||| p.2.2)

/-- `frame_to_24int` (lines 29–34): pack an H×W frame of `(r, g, b)` pixels
into a flat row-major list of 24-bit integers.  The source builds the three
channel planes and combines them elementwise; per pixel that is `pack24`,
and `.ravel()` flattens in row-major order. -/
def frame_to_24int (frame : List (List (Nat × Nat × Nat))) : List Nat :=
  (frame.map (fun row => row.map pack24)).flatten

/-- If `is_similar_arr` returns a value (no exception), all three guards
passed: equal lengths, byte count a multiple of 3, and at least one row. -/
theorem is_similar_arr_guards {a b : List Nat} {t : Nat} {r : ℚ} {v : Bool}
    (h : is_similar_arr a b t r = some v) :
    a.length = b.length ∧ (xorBytes a b).length % 3 = 0 ∧ (zeroRows a b).length ≠ 0 := by
  unfold is_similar_arr at h
  by_cases g1 : a.length ≠ b.length
  · rw [if_pos g1] at h; exact absurd h (by simp)
  · rw [if_neg g1] at h
    by_cases g2 : (xorBytes a b).length % 3 ≠ 0
    · rw [if_pos g2] at h; exact absurd h (by simp)
    · rw [if_neg g2] at h
      by_cases g3 : (zeroRows a b).length = 0
      · rw [if_pos g3] at h; exact absurd h (by simp)
      · exact ⟨by omega, by omega, g3⟩

/-- When the three guards pass, `is_similar_arr` returns the ratio test. -/
theorem is_similar_arr_eq_some {a b : List Nat} (t : Nat) (r : ℚ)
    (h1 : a.length = b.length) (h2 : (xorBytes a b).length % 3 = 0)
    (h3 : (zeroRows a b).length ≠ 0) :
    is_similar_arr a b t r =
      some (decide (r ≤ (matched_count a b t : ℚ) / ((zeroRows a b).length : ℚ))) := by
  unfold is_similar_arr
  rw [if_neg (by omega), if_neg (by omega), if_neg h3]


/-- C1: the code does not compute the per-pixel low-24-bit zero count the
specification describes.  Each `uint32` pixel contributes four bytes
(its fourth byte always `0`), so `reshape(-1, 24)` regroups the unpacked
bit stream into 24-bit rows that straddle pixel boundaries: three pixels
become four rows.  On `a = [0xFFFFFF, 0, 0]`, `b = [0, 0, 0]` with
threshold 17 and ratio 0.70 the code finds 3 of 4 rows matched
(ratio 3/4, similar), while the specified per-pixel count is 2 of 3
pixels (ratio 2/3, not similar). -/
theorem c1_row_regrouping_bug :
    is_similar_arr [16777215, 0, 0] [0, 0, 0] 17 (7 / 10) = some true ∧
    is_similar_spec [16777215, 0, 0] [0, 0, 0] 17 (7 / 10) = false := by
  constructor
  · have h1 : matched_count [16777215, 0, 0] [0, 0, 0] 17 = 3 := rfl
    have h2 : (zeroRows [16777215, 0, 0] [0, 0, 0]).length = 4 := rfl
    have h3 : (xorBytes [16777215, 0, 0] [0, 0, 0]).length = 12 := rfl
    rw [is_similar_arr, h1, h2, h3]
    norm_num
  · have h1 : (([16777215, 0, 0].zipWith Nat.xor [0, 0, 0]).map
        (fun x => 24 - popBits 24 x)).countP (fun z => decide (17 ≤ z)) = 2 := rfl
    rw [is_similar_spec]
    simp only [h1]
    norm_num

/-- C2: equal-length inputs are not the error-free case the claim states.
For a single pixel (`a = b = [0]`, equal lengths, value below `2 ^ 24`)
the 32 unpacked bits cannot be reshaped into rows of 24, so the source
raises `ValueError`; the model returns `none`. -/
theorem c2_reshape_error : is_similar_arr [0] [0] 17 (7 / 10) = none := by
  rw [is_similar_arr]
  norm_num [xorBytes, bytesLE4]

/-- C7: self-similarity fails on the code whenever the pixel count is not
a positive multiple of 3.  At `p = [0]`, `t = 24 ≤ 24`, `r = 1 ≤ 1` the
claim demands `true`, but the source raises `ValueError` in
`reshape(-1, 24)`; the model returns `none`. -/
theorem c7_self_similarity_error : is_similar_arr [0] [0] 24 1 = none := by
  rw [is_similar_arr]
  norm_num [xorBytes, bytesLE4]

/-- C8: for a fixed pair, the matched count is antitone in the zero-bit
threshold, and for a fixed threshold the similarity verdict is antitone in
the required ratio. -/
theorem c8_threshold_ratio_antitone (a b : List Nat) (_h : a.length = b.length)
    (t t₁ t₂ : Nat) (ht : t₁ ≤ t₂) (r₁ r₂ : ℚ) (hr : r₁ ≤ r₂) :
    matched_count a b t₂ ≤ matched_count a b t₁ ∧
    (is_similar_arr a b t r₂ = some true → is_similar_arr a b t r₁ = some true) := by
  constructor
  · exact List.countP_mono_left fun x _ hx => by
      simp only [decide_eq_true_eq] at hx ⊢; omega
  · intro hsim
    obtain ⟨g1, g2, g3⟩ := is_similar_arr_guards hsim
    rw [is_similar_arr_eq_some t r₂ g1 g2 g3] at hsim
    rw [is_similar_arr_eq_some t r₁ g1 g2 g3]
    simp only [Option.some_inj, decide_eq_true_eq] at hsim ⊢
    exact le_trans hr hsim

/-- Witness for C8 at a concrete pair, thresholds and ratios. -/
theorem c8_witness :
    matched_count [0, 0, 0] [0, 0, 0] 2 ≤ matched_count [0, 0, 0] [0, 0, 0] 1 ∧
    (is_similar_arr [0, 0, 0] [0, 0, 0] 17 (7 / 10) = some true →
      is_similar_arr [0, 0, 0] [0, 0, 0] 17 (1 / 2) = some true) :=
  c8_threshold_ratio_antitone [0, 0, 0] [0, 0, 0] rfl 17 1 2 (by norm_num)
    (1 / 2) (7 / 10) (by norm_num)

/-- A packed pixel with 8-bit channels stays below `2 ^ 24`. -/
theorem pack24_lt (p : Nat × Nat × Nat) (h1 : p.1 < 2 ^ 8) (h2 : p.2.1 < 2 ^ 8)
    (h3 : p.2.2 < 2 ^ 8) : pack24 p < 2 ^ 24 := by
  unfold pack24
  apply Nat.or_lt_two_pow
  · rw [Nat.shiftLeft_eq]
    norm_num at h1 ⊢
    omega
  · apply Nat.or_lt_two_pow
    · rw [Nat.shiftLeft_eq]
      norm_num at h2 ⊢
      omega
    · norm_num at h3 ⊢
      omega

/-- Rows of one common length `w` flatten to `w * count` elements. -/
theorem sum_map_length_eq {α : Type} (w : Nat) :
    ∀ L : List (List α), (∀ row ∈ L, row.length = w) →
      (L.map List.length).sum = w * L.length := by
  intro L
  induction L with
  | nil => simp
  | cons row rest ih =>
    intro hw
    simp only [List.map_cons, List.sum_cons, List.length_cons]
    rw [hw row (by simp), ih fun r hr => hw r (by simp [hr])]
    ring

/-- C9: `frame_to_24int` emits exactly `width * height` packed values, the
`i`-th being `pack24` of the `i`-th pixel in row-major order, all below
`2 ^ 24`. -/
theorem c9_frame_encoding (frame : List (List (Nat × Nat × Nat))) (width : Nat)
    (hw : ∀ row ∈ frame, row.length = width)
    (hc : ∀ row ∈ frame, ∀ p ∈ row, p.1 < 2 ^ 8 ∧ p.2.1 < 2 ^ 8 ∧ p.2.2 < 2 ^ 8) :
    (frame_to_24int frame).length = width * frame.length ∧
    frame_to_24int frame = frame.flatten.map pack24 ∧
    ∀ v ∈ frame_to_24int frame, v ≤ 2 ^ 24 - 1 := by
  have hmap : frame_to_24int frame = frame.flatten.map pack24 := by
    unfold frame_to_24int
    rw [List.map_flatten]
  refine ⟨?_, hmap, ?_⟩
  · rw [hmap, List.length_map, List.length_flatten]
    exact sum_map_length_eq width frame hw
  · intro v hv
    rw [hmap] at hv
    simp only [List.mem_map, List.mem_flatten] at hv
    obtain ⟨p, ⟨row, hrow, hp⟩, rfl⟩ := hv
    obtain ⟨b1, b2, b3⟩ := hc row hrow p hp
    have hlt := pack24_lt p b1 b2 b3
    omega

/-- Witness for C9 on a concrete 2×2 frame. -/
theorem c9_witness :
    (frame_to_24int [[(1, 2, 3), (255, 255, 255)], [(0, 0, 0), (16, 32, 64)]]).length =
      2 * ([[(1, 2, 3), (255, 255, 255)], [(0, 0, 0), (16, 32, 64)]] :
        List (List (Nat × Nat × Nat))).length ∧
    frame_to_24int [[(1, 2, 3), (255, 255, 255)], [(0, 0, 0), (16, 32, 64)]] =
      ([[(1, 2, 3), (255, 255, 255)], [(0, 0, 0), (16, 32, 64)]] :
        List (List (Nat × Nat × Nat))).flatten.map pack24 ∧
    ∀ v ∈ frame_to_24int [[(1, 2, 3), (255, 255, 255)], [(0, 0, 0), (16, 32, 64)]],
      v ≤ 2 ^ 24 - 1 :=
  c9_frame_encoding [[(1, 2, 3), (255, 255, 255)], [(0, 0, 0), (16, 32, 64)]] 2
    (by decide) (by decide)

/-- The halving loop of lines 58–61: `offs, step = [], int(fps)` then
`while step >= 1: offs.append(step); step //= 2`. -/
def build_offs (s : Nat) : List Nat :=
  if h : 1 ≤ s then s :: build_offs (s / 2) else []
decreasing_by exact Nat.div_lt_self h (by norm_num)

/-- Lines 62–63: `if offs[-1] != 1: offs.append(1)`.  On an empty `offs`
(that is, `int(fps) < 1`) the subscript `offs[-1]` raises `IndexError`,
modelled by `none`. -/
def mk_offs (s : Nat) : Option (List Nat) :=
  match build_offs s with
  | [] => none
  | l => some (if l.getLastD 0 ≠ 1 then l ++ [1] else l)

/-- The offset ladder as a function of the frame rate: Python's
`int(fps)` truncates toward zero, which is `⌊fps⌋` for `fps ≥ 0`. -/
def ladder (fps : ℚ) : Option (List Nat) :=
  mk_offs ⌊fps⌋.toNat

/-- The scanner's mutable state: the current base index and the set of
indices marked redundant so far. -/
structure ScanState where
  base : Nat
  redundant : Finset Nat
deriving DecidableEq

/-- Line 67: `candidates = [base + o for o in offs if base + o < N]`. -/
def candidatesOf (offs : List Nat) (N base : Nat) : List Nat :=
  (offs.filter (fun o => decide (base + o < N))).map (fun o => base + o)

/-- The inner `for cand in candidates` loop (lines 70–79) run until its
first non-`False` outcome: `some (some c)` means the first similar
candidate is `c` (the `break`), `some none` means the list was exhausted
without a match (the `for`-`else`), and `none` means a comparison raised. -/
def firstMatch (simO : Nat → Nat → Option Bool) (base : Nat) : List Nat → Option (Option Nat)
  | [] => some none
  | c :: cs =>
    match simO base c with
    | none => none
    | some true => some (some c)
    | some false => firstMatch simO base cs

/-- One iteration of the outer `while` loop (lines 65–83): on a match at
`c`, mark `base+1 .. c` (i.e. `range(base+1, c+1)`) redundant and move the
base to `c + 1`; otherwise fall back to `min(base + 10, N - 1)`. -/
def scanStepO (simO : Nat → Nat → Option Bool) (offs : List Nat) (N : Nat)
    (s : ScanState) : Option ScanState :=
  match firstMatch simO s.base (candidatesOf offs N s.base) with
  | none => none
  | some (some c) => some ⟨c + 1, s.redundant ∪ Finset.Ico (s.base + 1) (c + 1)⟩
  | some none => some ⟨min (s.base + 10) (N - 1), s.redundant⟩

/-- A matched candidate is one of the candidates. -/
theorem firstMatch_mem {simO : Nat → Nat → Option Bool} {base c : Nat} :
    ∀ {l : List Nat}, firstMatch simO base l = some (some c) → c ∈ l := by
  intro l
  induction l with
  | nil => intro h; simp [firstMatch] at h
  | cons x xs ih =>
    intro h
    rw [firstMatch] at h
    match hx : simO base x with
    | none => rw [hx] at h; exact absurd h (by simp)
    | some true => rw [hx] at h; simp only [Option.some_inj] at h; simp [h]
    | some false => rw [hx] at h; exact List.mem_cons_of_mem x (ih h)

/-- Every candidate is `base + o` for a ladder offset `o` and lies below `N`. -/
theorem mem_candidatesOf {offs : List Nat} {N base c : Nat}
    (h : c ∈ candidatesOf offs N base) : (∃ o ∈ offs, c = base + o) ∧ c < N := by
  simp only [candidatesOf, List.mem_map, List.mem_filter, decide_eq_true_eq] at h
  obtain ⟨o, ⟨ho, hlt⟩, rfl⟩ := h
  exact ⟨⟨o, ho, rfl⟩, hlt⟩

/-- While the loop condition holds, a successful iteration strictly
advances the base (a match moves it past the candidate; the fallback adds
10 clamped to `N - 1`, which stays above a base below `N - 1`). -/
theorem scanStepO_base_lt {simO : Nat → Nat → Option Bool} {offs : List Nat}
    {N : Nat} {s s' : ScanState} (hb : s.base < N - 1)
    (h : scanStepO simO offs N s = some s') : s.base < s'.base := by
  unfold scanStepO at h
  match hm : firstMatch simO s.base (candidatesOf offs N s.base) with
  | none => rw [hm] at h; exact absurd h (by simp)
  | some (some c) =>
    rw [hm] at h
    simp only [Option.some_inj] at h
    have hc := firstMatch_mem hm
    obtain ⟨⟨o, _, rfl⟩, _⟩ := mem_candidatesOf hc
    rw [← h]
    show s.base < s.base + o + 1
    omega
  | some none =>
    rw [hm] at h
    simp only [Option.some_inj] at h
    rw [← h]
    show s.base < min (s.base + 10) (N - 1)
    omega

/-- The outer `while base < N - 1` loop (lines 65–83), threading a raised
exception through as `none`. -/
def scanLoopO (simO : Nat → Nat → Option Bool) (offs : List Nat) (N : Nat)
    (s : ScanState) : Option ScanState :=
  if hb : s.base < N - 1 then
    match hs : scanStepO simO offs N s with
    | none => none
    | some s' => scanLoopO simO offs N s'
  else some s
termination_by N - 1 - s.base
decreasing_by have := scanStepO_base_lt hb hs; omega

/-- The scanner's similarity oracle on frame indices:
`is_similar_arr(int_frames[base], int_frames[cand])` (line 72).  Frames
are looked up with a default; the scan only ever uses indices below `N`
(claim C10). -/
def scanSim (int_frames : List (List Nat)) (t : Nat) (r : ℚ) :
    Nat → Nat → Option Bool :=
  fun i j => is_similar_arr (int_frames.getD i []) (int_frames.getD j []) t r

/-- `find_redundant_ranges` (lines 46–85) for packed frames `int_frames`
and frame rate `fps`, with the similarity threshold and ratio passed in
(the source reads them from module globals).  The final
`sorted(redundant)` is `Finset.sort`. -/
def find_redundant_ranges (int_frames : List (List Nat)) (fps : ℚ) (t : Nat)
    (r : ℚ) : Option (List Nat) :=
  match ladder fps with
  | none => none
  | some offs =>
    match scanLoopO (scanSim int_frames t r) offs int_frames.length ⟨0, ∅⟩ with
    | none => none
    | some s => some (s.redundant.sort (· ≤ ·))

/-- Unfolding equation for `build_offs` at a positive step. -/
theorem build_offs_pos {s : Nat} (h : 1 ≤ s) :
    build_offs s = s :: build_offs (s / 2) := by
  rw [build_offs]
  exact dif_pos h

/-- `build_offs 0` is empty: the while loop does not run. -/
theorem build_offs_zero : build_offs 0 = [] := by
  rw [build_offs]
  norm_num

/-- Every value the halving loop appends is positive and at most `s`. -/
theorem build_offs_mem : ∀ s : Nat, ∀ x ∈ build_offs s, 1 ≤ x ∧ x ≤ s := by
  intro s
  induction s using Nat.strong_induction_on with
  | _ s ih =>
    intro x hx
    by_cases h : 1 ≤ s
    · rw [build_offs_pos h] at hx
      rcases List.mem_cons.mp hx with rfl | hx
      · omega
      · have := ih (s / 2) (Nat.div_lt_self h (by norm_num)) x hx
        omega
    · rw [show s = 0 by omega, build_offs_zero] at hx
      exact absurd hx (List.not_mem_nil x)

/-- The halving loop produces a strictly decreasing list. -/
theorem build_offs_sorted : ∀ s : Nat, (build_offs s).Sorted (· > ·) := by
  intro s
  induction s using Nat.strong_induction_on with
  | _ s ih =>
    by_cases h : 1 ≤ s
    · rw [build_offs_pos h]
      refine List.sorted_cons.mpr ⟨?_, ih (s / 2) (Nat.div_lt_self h (by norm_num))⟩
      intro b hb
      have := build_offs_mem (s / 2) b hb
      omega
    · rw [show s = 0 by omega, build_offs_zero]
      exact List.sorted_nil

/-- When the loop runs at all, its last appended value is `1`. -/
theorem build_offs_getLast : ∀ s : Nat, 1 ≤ s → (build_offs s).getLast? = some 1 := by
  intro s
  induction s using Nat.strong_induction_on with
  | _ s ih =>
    intro h
    rw [build_offs_pos h]
    by_cases h2 : 2 ≤ s
    · have h12 : 1 ≤ s / 2 := by omega
      have := ih (s / 2) (Nat.div_lt_self h (by norm_num)) h12
      rw [build_offs_pos h12] at this ⊢
      rw [List.getLast?_cons_cons]
      exact this
    · rw [show s = 1 by omega]
      rw [show (1 : Nat) / 2 = 0 from rfl, build_offs_zero]
      rfl

/-- For a positive truncated frame rate the `offs[-1] != 1` test is false
and `mk_offs` returns the bare halving list. -/
theorem mk_offs_pos {s : Nat} (h : 1 ≤ s) : mk_offs s = some (build_offs s) := by
  have hcons := build_offs_pos h
  have hlast : (build_offs s).getLastD 0 = 1 := by
    rw [List.getLastD_eq_getLast?, build_offs_getLast s h]
    rfl
  unfold mk_offs
  rw [hcons] at hlast ⊢
  simp only [hlast]
  norm_num

/-- C5: for `⌊fps⌋ ≥ 1` the ladder construction succeeds and returns a
strictly decreasing list of positive offsets whose first element is
`⌊fps⌋` and which ends in exactly one trailing `1`. -/
theorem c5_ladder_shape (fps : ℚ) (h : 1 ≤ ⌊fps⌋) :
    ∃ l, ladder fps = some l ∧ l.Sorted (· > ·) ∧ (∀ o ∈ l, 1 ≤ o) ∧
      l.head? = some ⌊fps⌋.toNat ∧ l.getLast? = some 1 ∧ l.count 1 = 1 := by
  have hs : 1 ≤ ⌊fps⌋.toNat := by omega
  refine ⟨build_offs ⌊fps⌋.toNat, ?_, build_offs_sorted _, ?_, ?_, build_offs_getLast _ hs, ?_⟩
  · unfold ladder
    exact mk_offs_pos hs
  · intro o ho
    exact (build_offs_mem _ o ho).1
  · rw [build_offs_pos hs]
    rfl
  · have hnd : (build_offs ⌊fps⌋.toNat).Nodup := (build_offs_sorted _).nodup
    have hmem : 1 ∈ build_offs ⌊fps⌋.toNat :=
      List.mem_of_mem_getLast? (build_offs_getLast _ hs)
    exact List.count_eq_one_of_mem hnd hmem

/-- Witness for C5 at `fps = 30`. -/
theorem c5_witness :
    ∃ l, ladder 30 = some l ∧ l.Sorted (· > ·) ∧ (∀ o ∈ l, 1 ≤ o) ∧
      l.head? = some ⌊(30 : ℚ)⌋.toNat ∧ l.getLast? = some 1 ∧ l.count 1 = 1 :=
  c5_ladder_shape 30 (by norm_num)

/-- The comparisons the inner loop performs, in order (the `print` and
`is_similar_arr` call of lines 70–72): every candidate up to and including
the first one whose comparison does not come back `False`. -/
def innerComps (simO : Nat → Nat → Option Bool) (base : Nat) :
    List Nat → List (Nat × Nat)
  | [] => []
  | c :: cs =>
    match simO base c with
    | some false => (base, c) :: innerComps simO base cs
    | _ => [(base, c)]

/-- The outer loop again (lines 65–83), instrumented: final state (`none`
on a raised exception), number of outer iterations, the base indices in
visiting order, and the comparisons performed.  The first component is
exactly `scanLoopO` (`scanLog_fst`). -/
def scanLog (simO : Nat → Nat → Option Bool) (offs : List Nat) (N : Nat)
    (s : ScanState) : Option ScanState × Nat × List Nat × List (Nat × Nat) :=
  if hb : s.base < N - 1 then
    match hs : scanStepO simO offs N s with
    | none => (none, 1, [s.base], innerComps simO s.base (candidatesOf offs N s.base))
    | some s' =>
      ((scanLog simO offs N s').1, (scanLog simO offs N s').2.1 + 1,
        s.base :: (scanLog simO offs N s').2.2.1,
        innerComps simO s.base (candidatesOf offs N s.base) ++ (scanLog simO offs N s').2.2.2)
  else (some s, 0, [], [])
termination_by N - 1 - s.base
decreasing_by all_goals { have := scanStepO_base_lt hb hs; omega }

/-- Unfolding `scanLoopO` when the loop condition fails. -/
theorem scanLoopO_exit {simO : Nat → Nat → Option Bool} {offs : List Nat}
    {N : Nat} {s : ScanState} (hb : ¬ s.base < N - 1) :
    scanLoopO simO offs N s = some s := by
  rw [scanLoopO, dif_neg hb]

/-- Unfolding `scanLoopO` when the iteration raises. -/
theorem scanLoopO_step_none {simO : Nat → Nat → Option Bool} {offs : List Nat}
    {N : Nat} {s : ScanState} (hb : s.base < N - 1)
    (hs : scanStepO simO offs N s = none) : scanLoopO simO offs N s = none := by
  rw [scanLoopO, dif_pos hb]
  split
  · rfl
  · rename_i s'' heq
    rw [heq] at hs
    exact absurd hs (by simp)

/-- Unfolding `scanLoopO` across one successful iteration. -/
theorem scanLoopO_step_some {simO : Nat → Nat → Option Bool} {offs : List Nat}
    {N : Nat} {s s' : ScanState} (hb : s.base < N - 1)
    (hs : scanStepO simO offs N s = some s') :
    scanLoopO simO offs N s = scanLoopO simO offs N s' := by
  rw [scanLoopO, dif_pos hb]
  split
  · rename_i heq
    rw [heq] at hs
    exact absurd hs (by simp)
  · rename_i s'' heq
    rw [heq] at hs
    simp only [Option.some_inj] at hs
    rw [hs]

/-- Unfolding `scanLog` when the loop condition fails. -/
theorem scanLog_exit {simO : Nat → Nat → Option Bool} {offs : List Nat}
    {N : Nat} {s : ScanState} (hb : ¬ s.base < N - 1) :
    scanLog simO offs N s = (some s, 0, [], []) := by
  rw [scanLog, dif_neg hb]

/-- Unfolding `scanLog` when the iteration raises. -/
theorem scanLog_step_none {simO : Nat → Nat → Option Bool} {offs : List Nat}
    {N : Nat} {s : ScanState} (hb : s.base < N - 1)
    (hs : scanStepO simO offs N s = none) :
    scanLog simO offs N s =
      (none, 1, [s.base], innerComps simO s.base (candidatesOf offs N s.base)) := by
  rw [scanLog, dif_pos hb]
  split
  · rfl
  · rename_i s'' heq
    rw [heq] at hs
    exact absurd hs (by simp)

/-- Unfolding `scanLog` across one successful iteration. -/
theorem scanLog_step_some {simO : Nat → Nat → Option Bool} {offs : List Nat}
    {N : Nat} {s s' : ScanState} (hb : s.base < N - 1)
    (hs : scanStepO simO offs N s = some s') :
    scanLog simO offs N s =
      ((scanLog simO offs N s').1, (scanLog simO offs N s').2.1 + 1,
        s.base :: (scanLog simO offs N s').2.2.1,
        innerComps simO s.base (candidatesOf offs N s.base) ++
          (scanLog simO offs N s').2.2.2) := by
  rw [scanLog, dif_pos hb]
  split
  · rename_i heq
    rw [heq] at hs
    exact absurd hs (by simp)
  · rename_i s'' heq
    rw [heq] at hs
    simp only [Option.some_inj] at hs
    rw [hs]

/-- The instrumented loop computes the same final state as the plain one. -/
theorem scanLog_fst (simO : Nat → Nat → Option Bool) (offs : List Nat) (N : Nat) :
    ∀ s, (scanLog simO offs N s).1 = scanLoopO simO offs N s := by
  suffices H : ∀ d s, N - 1 - s.base = d → (scanLog simO offs N s).1 = scanLoopO simO offs N s by
    exact fun s => H (N - 1 - s.base) s rfl
  intro d
  induction d using Nat.strong_induction_on with
  | _ d ih =>
    intro s hd
    by_cases hb : s.base < N - 1
    · match hs : scanStepO simO offs N s with
      | none => rw [scanLog_step_none hb hs, scanLoopO_step_none hb hs]
      | some s' =>
        rw [scanLog_step_some hb hs, scanLoopO_step_some hb hs]
        have hlt := scanStepO_base_lt hb hs
        exact ih (N - 1 - s'.base) (by omega) s' rfl
    · rw [scanLog_exit hb, scanLoopO_exit hb]

/-- With a total (never-raising) similarity verdict, the inner loop either
finds the first matching candidate — having compared exactly the earlier
(all failing) candidates and the match — or exhausts the whole list. -/
theorem firstMatch_total (sim : Nat → Nat → Bool) (base : Nat) :
    ∀ l : List Nat,
      (∃ pre c post, l = pre ++ c :: post ∧ sim base c = true ∧
        (∀ x ∈ pre, sim base x = false) ∧
        firstMatch (fun i j => some (sim i j)) base l = some (some c) ∧
        innerComps (fun i j => some (sim i j)) base l =
          pre.map (fun x => (base, x)) ++ [(base, c)]) ∨
      ((∀ x ∈ l, sim base x = false) ∧
        firstMatch (fun i j => some (sim i j)) base l = some none ∧
        innerComps (fun i j => some (sim i j)) base l =
          l.map (fun x => (base, x))) := by
  intro l
  induction l with
  | nil => exact Or.inr ⟨by simp, rfl, rfl⟩
  | cons x xs ih =>
    by_cases hx : sim base x = true
    · refine Or.inl ⟨[], x, xs, by simp, hx, by simp, ?_, ?_⟩
      · rw [firstMatch, hx]
      · rw [innerComps, hx]
        rfl
    · have hx' : sim base x = false := by
        cases hv : sim base x
        · rfl
        · exact absurd hv hx
      rcases ih with ⟨pre, c, post, hl, hc, hpre, hfm, hic⟩ | ⟨hall, hfm, hic⟩
      · refine Or.inl ⟨x :: pre, c, post, by rw [hl]; rfl, hc, ?_, ?_, ?_⟩
        · intro y hy
          rcases List.mem_cons.mp hy with rfl | hy
          · exact hx'
          · exact hpre y hy
        · rw [firstMatch, hx']
          exact hfm
        · rw [innerComps, hx', hic]
          rfl
      · refine Or.inr ⟨?_, ?_, ?_⟩
        · intro y hy
          rcases List.mem_cons.mp hy with rfl | hy
          · exact hx'
          · exact hall y hy
        · rw [firstMatch, hx']
          exact hfm
        · rw [innerComps, hx', hic]
          rfl

/-- C3: one outer iteration, for any total similarity verdict.  The
candidate list is `base + o` for the ladder offsets `o` with `base + o <
N`, in ladder order.  Either some candidate matches: at the first such
`c`, exactly `base+1 .. c` is added, the base becomes `c + 1`, and no
candidate after `c` was compared; or none matches (in particular when the
list is empty) and the base becomes `min (base + 10) (N - 1)` with
nothing added. -/
theorem c3_outer_iteration (sim : Nat → Nat → Bool) (offs : List Nat) (N : Nat)
    (s : ScanState) (_hb : s.base < N - 1) :
    (∃ pre c post,
      candidatesOf offs N s.base = pre ++ c :: post ∧ sim s.base c = true ∧
      (∀ x ∈ pre, sim s.base x = false) ∧
      scanStepO (fun i j => some (sim i j)) offs N s =
        some ⟨c + 1, s.redundant ∪ Finset.Icc (s.base + 1) c⟩ ∧
      innerComps (fun i j => some (sim i j)) s.base (candidatesOf offs N s.base) =
        pre.map (fun x => (s.base, x)) ++ [(s.base, c)]) ∨
    ((∀ x ∈ candidatesOf offs N s.base, sim s.base x = false) ∧
      scanStepO (fun i j => some (sim i j)) offs N s =
        some ⟨min (s.base + 10) (N - 1), s.redundant⟩ ∧
      innerComps (fun i j => some (sim i j)) s.base (candidatesOf offs N s.base) =
        (candidatesOf offs N s.base).map (fun x => (s.base, x))) := by
  rcases firstMatch_total sim s.base (candidatesOf offs N s.base) with
    ⟨pre, c, post, hl, hc, hpre, hfm, hic⟩ | ⟨hall, hfm, hic⟩
  · refine Or.inl ⟨pre, c, post, hl, hc, hpre, ?_, hic⟩
    unfold scanStepO
    rw [hfm]
    have hicc : Finset.Ico (s.base + 1) (c + 1) = Finset.Icc (s.base + 1) c :=
      Nat.Ico_succ_right _ _
    show some (⟨c + 1, s.redundant ∪ Finset.Ico (s.base + 1) (c + 1)⟩ : ScanState) =
      some ⟨c + 1, s.redundant ∪ Finset.Icc (s.base + 1) c⟩
    rw [hicc]
  · refine Or.inr ⟨hall, ?_, hic⟩
    unfold scanStepO
    rw [hfm]

/-- Witness for C3: a run where every comparison matches. -/
theorem c3_witness :
    (∃ pre c post,
      candidatesOf [1] 3 (⟨0, ∅⟩ : ScanState).base = pre ++ c :: post ∧
      (fun _ _ : Nat => true) (⟨0, ∅⟩ : ScanState).base c = true ∧
      (∀ x ∈ pre, (fun _ _ : Nat => true) (⟨0, ∅⟩ : ScanState).base x = false) ∧
      scanStepO (fun i j => some ((fun _ _ : Nat => true) i j)) [1] 3 ⟨0, ∅⟩ =
        some ⟨c + 1, (⟨0, ∅⟩ : ScanState).redundant ∪
          Finset.Icc ((⟨0, ∅⟩ : ScanState).base + 1) c⟩ ∧
      innerComps (fun i j => some ((fun _ _ : Nat => true) i j))
          (⟨0, ∅⟩ : ScanState).base (candidatesOf [1] 3 (⟨0, ∅⟩ : ScanState).base) =
        pre.map (fun x => ((⟨0, ∅⟩ : ScanState).base, x)) ++
          [((⟨0, ∅⟩ : ScanState).base, c)]) ∨
    ((∀ x ∈ candidatesOf [1] 3 (⟨0, ∅⟩ : ScanState).base,
        (fun _ _ : Nat => true) (⟨0, ∅⟩ : ScanState).base x = false) ∧
      scanStepO (fun i j => some ((fun _ _ : Nat => true) i j)) [1] 3 ⟨0, ∅⟩ =
        some ⟨min ((⟨0, ∅⟩ : ScanState).base + 10) (3 - 1),
          (⟨0, ∅⟩ : ScanState).redundant⟩ ∧
      innerComps (fun i j => some ((fun _ _ : Nat => true) i j))
          (⟨0, ∅⟩ : ScanState).base (candidatesOf [1] 3 (⟨0, ∅⟩ : ScanState).base) =
        (candidatesOf [1] 3 (⟨0, ∅⟩ : ScanState).base).map
          (fun x => ((⟨0, ∅⟩ : ScanState).base, x))) :=
  c3_outer_iteration (fun _ _ => true) [1] 3 ⟨0, ∅⟩ (by decide)

/-- A successful iteration yields field equations for the next state:
either the first match `c` with `base' = c + 1` and `range(base+1, c+1)`
added, or the fallback `base' = min (base + 10) (N - 1)` adding nothing. -/
theorem scanStepO_cases {simO : Nat → Nat → Option Bool} {offs : List Nat}
    {N : Nat} {s s' : ScanState} (h : scanStepO simO offs N s = some s') :
    (∃ c, c ∈ candidatesOf offs N s.base ∧ s'.base = c + 1 ∧
      s'.redundant = s.redundant ∪ Finset.Ico (s.base + 1) (c + 1)) ∨
    (s'.base = min (s.base + 10) (N - 1) ∧ s'.redundant = s.redundant) := by
  unfold scanStepO at h
  match hm : firstMatch simO s.base (candidatesOf offs N s.base) with
  | none => rw [hm] at h; exact absurd h (by simp)
  | some (some c) =>
    rw [hm] at h
    simp only [Option.some_inj] at h
    exact Or.inl ⟨c, firstMatch_mem hm, by rw [← h], by rw [← h]⟩
  | some none =>
    rw [hm] at h
    simp only [Option.some_inj] at h
    exact Or.inr ⟨by rw [← h], by rw [← h]⟩

/-- The outer loop runs at most `N - 1 - base` further iterations: each
one strictly advances the base while the loop condition holds. -/
theorem scanLog_iters (simO : Nat → Nat → Option Bool) (offs : List Nat) (N : Nat) :
    ∀ d s, N - 1 - s.base = d → (scanLog simO offs N s).2.1 ≤ N - 1 - s.base := by
  intro d
  induction d using Nat.strong_induction_on with
  | _ d ih =>
    intro s hd
    by_cases hb : s.base < N - 1
    · match hs : scanStepO simO offs N s with
      | none =>
        rw [scanLog_step_none hb hs]
        show 1 ≤ N - 1 - s.base
        omega
      | some s' =>
        rw [scanLog_step_some hb hs]
        have hlt := scanStepO_base_lt hb hs
        have hrec := ih (N - 1 - s'.base) (by omega) s' rfl
        show (scanLog simO offs N s').2.1 + 1 ≤ N - 1 - s.base
        omega
    · rw [scanLog_exit hb]
      show 0 ≤ N - 1 - s.base
      omega

/-- The number of outer iterations `find_redundant_ranges` performs
(0 when the ladder construction itself raises). -/
def scan_outer_iterations (int_frames : List (List Nat)) (fps : ℚ) (t : Nat)
    (r : ℚ) : Nat :=
  match ladder fps with
  | none => 0
  | some offs =>
    (scanLog (scanSim int_frames t r) offs int_frames.length ⟨0, ∅⟩).2.1

/-- C6: on `N` frames the scanner performs at most `N` outer iterations;
each successful iteration strictly advances the base
(`scanStepO_base_lt`), so the count is bounded by `N - 1`. -/
theorem c6_iteration_bound (int_frames : List (List Nat)) (fps : ℚ) (t : Nat)
    (r : ℚ) : scan_outer_iterations int_frames fps t r ≤ int_frames.length := by
  unfold scan_outer_iterations
  cases hlad : ladder fps with
  | none => show (0 : Nat) ≤ int_frames.length; omega
  | some offs =>
    have h := scanLog_iters (scanSim int_frames t r) offs int_frames.length
      (int_frames.length - 1 - (⟨0, ∅⟩ : ScanState).base) ⟨0, ∅⟩ rfl
    have h0 : (⟨0, ∅⟩ : ScanState).base = 0 := rfl
    show (scanLog (scanSim int_frames t r) offs int_frames.length ⟨0, ∅⟩).2.1 ≤
      int_frames.length
    omega

/-- Loop invariant: a finished scan only grows the base, and every index
in the final redundant set either was there at entry or was added strictly
between the entry base (exclusive) and both `N` and the final base. -/
theorem scanLoopO_invariant (simO : Nat → Nat → Option Bool) (offs : List Nat)
    (N : Nat) :
    ∀ d s s_f, N - 1 - s.base = d → scanLoopO simO offs N s = some s_f →
      s.base ≤ s_f.base ∧
      ∀ x ∈ s_f.redundant,
        x ∈ s.redundant ∨ (s.base < x ∧ x < N ∧ x < s_f.base) := by
  intro d
  induction d using Nat.strong_induction_on with
  | _ d ih =>
    intro s s_f hd hloop
    by_cases hb : s.base < N - 1
    · match hs : scanStepO simO offs N s with
      | none =>
        rw [scanLoopO_step_none hb hs] at hloop
        exact absurd hloop (by simp)
      | some s' =>
        rw [scanLoopO_step_some hb hs] at hloop
        have hlt := scanStepO_base_lt hb hs
        obtain ⟨h1, h2⟩ := ih (N - 1 - s'.base) (by omega) s' s_f rfl hloop
        refine ⟨by omega, ?_⟩
        intro x hx
        rcases h2 x hx with hx' | ⟨hgt, hltN, hltb⟩
        · rcases scanStepO_cases hs with ⟨c, hcmem, hcb, hcr⟩ | ⟨hfb, hfr⟩
          · rw [hcr] at hx'
            rcases Finset.mem_union.mp hx' with hx' | hx'
            · exact Or.inl hx'
            · obtain ⟨hge, hle⟩ := Finset.mem_Ico.mp hx'
              obtain ⟨_, hcN⟩ := mem_candidatesOf hcmem
              exact Or.inr ⟨by omega, by omega, by omega⟩
          · rw [hfr] at hx'
            exact Or.inl hx'
        · exact Or.inr ⟨by omega, hltN, hltb⟩
    · rw [scanLoopO_exit hb] at hloop
      simp only [Option.some_inj] at hloop
      subst hloop
      exact ⟨le_refl _, fun x hx => Or.inl hx⟩

/-- No index that serves as a base during a finished scan ends up in the
redundant set, provided every index already marked lies below the current
base (true at the start, and preserved by every iteration). -/
theorem scanLog_bases (simO : Nat → Nat → Option Bool) (offs : List Nat) (N : Nat) :
    ∀ d s, N - 1 - s.base = d →
      (∀ x ∈ s.redundant, x < s.base) →
      ∀ s_f, (scanLog simO offs N s).1 = some s_f →
      ∀ b ∈ (scanLog simO offs N s).2.2.1, b ∉ s_f.redundant := by
  intro d
  induction d using Nat.strong_induction_on with
  | _ d ih =>
    intro s hd hpre s_f hfst b hbmem
    by_cases hb : s.base < N - 1
    · match hs : scanStepO simO offs N s with
      | none =>
        rw [scanLog_step_none hb hs] at hfst
        exact absurd hfst (by simp)
      | some s' =>
        rw [scanLog_step_some hb hs] at hfst hbmem
        replace hfst : (scanLog simO offs N s').1 = some s_f := hfst
        replace hbmem : b ∈ s.base :: (scanLog simO offs N s').2.2.1 := hbmem
        have hlt := scanStepO_base_lt hb hs
        have hpre' : ∀ x ∈ s'.redundant, x < s'.base := by
          rcases scanStepO_cases hs with ⟨c, hcmem, hcb, hcr⟩ | ⟨hfb, hfr⟩
          · intro x hx
            rw [hcr] at hx
            obtain ⟨⟨o, _, rfl⟩, hcN⟩ := mem_candidatesOf hcmem
            rcases Finset.mem_union.mp hx with hx | hx
            · have := hpre x hx
              omega
            · obtain ⟨hge, hle⟩ := Finset.mem_Ico.mp hx
              omega
          · intro x hx
            rw [hfr] at hx
            have := hpre x hx
            omega
        rcases List.mem_cons.mp hbmem with rfl | hbmem'
        · have hloop : scanLoopO simO offs N s = some s_f := by
            rw [← scanLog_fst]
            rw [scanLog_step_some hb hs]
            exact hfst
          obtain ⟨_, hinv⟩ := scanLoopO_invariant simO offs N (N - 1 - s.base) s s_f
            rfl hloop
          intro hbad
          rcases hinv s.base hbad with hmem' | ⟨hgt, _, _⟩
          · exact absurd (hpre _ hmem') (lt_irrefl _)
          · exact absurd hgt (lt_irrefl _)
        · exact ih (N - 1 - s'.base) (by omega) s' rfl hpre' s_f hfst b hbmem'
    · rw [scanLog_exit hb] at hbmem
      replace hbmem : b ∈ ([] : List Nat) := hbmem
      exact absurd hbmem (List.not_mem_nil b)

/-- The base indices a run of `find_redundant_ranges` visits, in order
(empty when the ladder construction raises first). -/
def scan_visited_bases (int_frames : List (List Nat)) (fps : ℚ) (t : Nat)
    (r : ℚ) : List Nat :=
  match ladder fps with
  | none => []
  | some offs =>
    (scanLog (scanSim int_frames t r) offs int_frames.length ⟨0, ∅⟩).2.2.1

/-- C4: a finished scan returns a strictly ascending, duplicate-free list
of indices; every index lies in `[1, N)`, so index 0 never appears and an
input of at most one frame yields the empty list; and no index that ever
served as a base appears in the result. -/
theorem c4_result_invariants (int_frames : List (List Nat)) (fps : ℚ) (t : Nat)
    (r : ℚ) (out : List Nat)
    (hout : find_redundant_ranges int_frames fps t r = some out) :
    List.Sorted (· < ·) out ∧ out.Nodup ∧
    (∀ i ∈ out, 1 ≤ i ∧ i < int_frames.length) ∧
    (int_frames.length ≤ 1 → out = []) ∧
    ∀ b ∈ scan_visited_bases int_frames fps t r, b ∉ out := by
  unfold find_redundant_ranges at hout
  cases hlad : ladder fps with
  | none => rw [hlad] at hout; simp at hout
  | some offs =>
    simp only [hlad] at hout
    cases hloop : scanLoopO (scanSim int_frames t r) offs int_frames.length ⟨0, ∅⟩ with
    | none =>
      simp only [hloop] at hout
      exact absurd hout (by simp)
    | some s_f =>
      simp only [hloop, Option.some_inj] at hout
      subst hout
      have hinv := scanLoopO_invariant (scanSim int_frames t r) offs
        int_frames.length (int_frames.length - 1 - (⟨0, ∅⟩ : ScanState).base)
        ⟨0, ∅⟩ s_f rfl hloop
      refine ⟨Finset.sort_sorted_lt _, Finset.sort_nodup _ _, ?_, ?_, ?_⟩
      · intro i hi
        have hi' : i ∈ s_f.redundant := (Finset.mem_sort _).mp hi
        rcases hinv.2 i hi' with hmem | ⟨hgt, hltN, _⟩
        · exact absurd hmem (Finset.not_mem_empty i)
        · constructor
          · show 1 ≤ i
            have h0 : (⟨0, ∅⟩ : ScanState).base = 0 := rfl
            omega
          · exact hltN
      · intro hN
        have hexit : scanLoopO (scanSim int_frames t r) offs int_frames.length
            ⟨0, ∅⟩ = some ⟨0, ∅⟩ := by
          apply scanLoopO_exit
          show ¬ (0 < int_frames.length - 1)
          omega
        rw [hexit] at hloop
        simp only [Option.some_inj] at hloop
        rw [← hloop]
        exact Finset.sort_empty _
      · intro b hbmem hbin
        have hbred : b ∈ s_f.redundant := (Finset.mem_sort _).mp hbin
        have hfst : (scanLog (scanSim int_frames t r) offs int_frames.length
            ⟨0, ∅⟩).1 = some s_f := by
          rw [scanLog_fst]
          exact hloop
        have hbases := scanLog_bases (scanSim int_frames t r) offs int_frames.length
          (int_frames.length - 1 - (⟨0, ∅⟩ : ScanState).base) ⟨0, ∅⟩ rfl
          (by intro x hx; exact absurd hx (Finset.not_mem_empty x)) s_f hfst
        have hbmem' : b ∈ (scanLog (scanSim int_frames t r) offs int_frames.length
            ⟨0, ∅⟩).2.2.1 := by
          unfold scan_visited_bases at hbmem
          simp only [hlad] at hbmem
          exact hbmem
        exact hbases b hbmem' hbred

/-- Witness for C4 on the empty frame list at `fps = 1`. -/
theorem c4_witness :
    List.Sorted (· < ·) ([] : List Nat) ∧ ([] : List Nat).Nodup ∧
    (∀ i ∈ ([] : List Nat), 1 ≤ i ∧ i < ([] : List (List Nat)).length) ∧
    (([] : List (List Nat)).length ≤ 1 → ([] : List Nat) = []) ∧
    ∀ b ∈ scan_visited_bases [] 1 17 (7 / 10), b ∉ ([] : List Nat) :=
  c4_result_invariants [] 1 17 (7 / 10) [] (by
    unfold find_redundant_ranges
    have hlad : ladder 1 = some [1] := by
      unfold ladder
      rw [show (⌊(1 : ℚ)⌋).toNat = 1 by norm_num]
      rw [mk_offs_pos (by norm_num)]
      rw [build_offs_pos (by norm_num)]
      norm_num [build_offs_zero]
    have hexit : scanLoopO (scanSim [] 17 (7 / 10)) [1] ([] : List (List Nat)).length
        ⟨0, ∅⟩ = some ⟨0, ∅⟩ := scanLoopO_exit (by decide)
    simp only [hlad, hexit]
    rw [Finset.sort_empty])

/-- Every comparison the inner loop performs pairs the base with one of
the candidates. -/
theorem innerComps_mem {simO : Nat → Nat → Option Bool} {base : Nat} :
    ∀ {l : List Nat} {p : Nat × Nat},
      p ∈ innerComps simO base l → ∃ c ∈ l, p = (base, c) := by
  intro l
  induction l with
  | nil => intro p h; rw [innerComps] at h; exact absurd h (List.not_mem_nil p)
  | cons c cs ih =>
    intro p h
    rw [innerComps] at h
    match hc : simO base c with
    | some false =>
      rw [hc] at h
      rcases List.mem_cons.mp h with rfl | h'
      · exact ⟨c, by simp, rfl⟩
      · obtain ⟨c', hc', rfl⟩ := ih h'
        exact ⟨c', by simp [hc'], rfl⟩
    | some true =>
      rw [hc] at h
      replace h : p ∈ [(base, c)] := h
      rcases List.mem_singleton.mp h with rfl
      exact ⟨c, by simp, rfl⟩
    | none =>
      rw [hc] at h
      replace h : p ∈ [(base, c)] := h
      rcases List.mem_singleton.mp h with rfl
      exact ⟨c, by simp, rfl⟩

/-- A successfully built ladder only holds positive offsets. -/
theorem mk_offs_members {s : Nat} {l : List Nat} (h : mk_offs s = some l) :
    ∀ o ∈ l, 1 ≤ o := by
  unfold mk_offs at h
  split at h
  · exact absurd h (by simp)
  · rename_i heq
    simp only [Option.some_inj] at h
    subst h
    intro o ho
    by_cases hc : (build_offs s).getLastD 0 ≠ 1
    · rw [if_pos hc] at ho
      rcases List.mem_append.mp ho with h1 | h1
      · exact (build_offs_mem s o h1).1
      · rcases List.mem_singleton.mp h1 with rfl
        omega
    · rw [if_neg hc] at ho
      exact (build_offs_mem s o ho).1

/-- A successfully built ladder (any `fps`) only holds positive offsets. -/
theorem ladder_members {fps : ℚ} {l : List Nat} (h : ladder fps = some l) :
    ∀ o ∈ l, 1 ≤ o := by
  unfold ladder at h
  exact mk_offs_members h

/-- Every comparison in a scan with positive offsets pairs a base with a
strictly larger candidate below `N`. -/
theorem scanLog_comps (simO : Nat → Nat → Option Bool) (offs : List Nat) (N : Nat)
    (hoffs : ∀ o ∈ offs, 1 ≤ o) :
    ∀ d s, N - 1 - s.base = d →
      ∀ p ∈ (scanLog simO offs N s).2.2.2, p.1 < p.2 ∧ p.2 < N := by
  have hblock : ∀ (base : Nat) (p : Nat × Nat),
      p ∈ innerComps simO base (candidatesOf offs N base) → p.1 < p.2 ∧ p.2 < N := by
    intro base p hp
    obtain ⟨c, hc, rfl⟩ := innerComps_mem hp
    obtain ⟨⟨o, ho, rfl⟩, hcN⟩ := mem_candidatesOf hc
    have := hoffs o ho
    exact ⟨by omega, hcN⟩
  intro d
  induction d using Nat.strong_induction_on with
  | _ d ih =>
    intro s hd p hp
    by_cases hb : s.base < N - 1
    · match hs : scanStepO simO offs N s with
      | none =>
        rw [scanLog_step_none hb hs] at hp
        replace hp : p ∈ innerComps simO s.base (candidatesOf offs N s.base) := hp
        exact hblock s.base p hp
      | some s' =>
        rw [scanLog_step_some hb hs] at hp
        replace hp : p ∈ innerComps simO s.base (candidatesOf offs N s.base) ++
          (scanLog simO offs N s').2.2.2 := hp
        have hlt := scanStepO_base_lt hb hs
        rcases List.mem_append.mp hp with hp' | hp'
        · exact hblock s.base p hp'
        · exact ih (N - 1 - s'.base) (by omega) s' rfl p hp'
    · rw [scanLog_exit hb] at hp
      replace hp : p ∈ ([] : List (Nat × Nat)) := hp
      exact absurd hp (List.not_mem_nil p)

/-- The (base, candidate) comparisons a run of `find_redundant_ranges`
performs, in order (empty when the ladder construction raises first). -/
def scan_comparisons (int_frames : List (List Nat)) (fps : ℚ) (t : Nat)
    (r : ℚ) : List (Nat × Nat) :=
  match ladder fps with
  | none => []
  | some offs =>
    (scanLog (scanSim int_frames t r) offs int_frames.length ⟨0, ∅⟩).2.2.2

/-- C10: whenever the scan evaluates a comparison, the two frame indices
satisfy `base < candidate < N`, so every frame access is in bounds. -/
theorem c10_comparisons_in_bounds (int_frames : List (List Nat)) (fps : ℚ)
    (t : Nat) (r : ℚ) :
    ∀ p ∈ scan_comparisons int_frames fps t r,
      p.1 < p.2 ∧ p.2 < int_frames.length := by
  intro p hp
  unfold scan_comparisons at hp
  cases hlad : ladder fps with
  | none => rw [hlad] at hp; simp at hp
  | some offs =>
    simp only [hlad] at hp
    exact scanLog_comps (scanSim int_frames t r) offs int_frames.length
      (ladder_members hlad) (int_frames.length - 1 - (⟨0, ∅⟩ : ScanState).base)
      ⟨0, ∅⟩ rfl p hp

/-- Witness for C10: a three-frame run whose single comparison is
`(base, cand) = (0, 1)` with `N = 3`. -/
theorem c10_witness :
    ((0, 1) : Nat × Nat).1 < ((0, 1) : Nat × Nat).2 ∧
    ((0, 1) : Nat × Nat).2 < ([[0], [0], [0]] : List (List Nat)).length :=
  c10_comparisons_in_bounds [[0], [0], [0]] 1 17 (7 / 10) (0, 1) (by
    have hlad : ladder 1 = some [1] := by
      unfold ladder
      rw [show (⌊(1 : ℚ)⌋).toNat = 1 by norm_num]
      rw [mk_offs_pos (by norm_num)]
      rw [build_offs_pos (by norm_num)]
      norm_num [build_offs_zero]
    have hstep : scanStepO (scanSim [[0], [0], [0]] 17 (7 / 10)) [1] 3 ⟨0, ∅⟩ =
        none := rfl
    have hlog := @scanLog_step_none (scanSim [[0], [0], [0]] 17 (7 / 10))
      [1] 3 ⟨0, ∅⟩ (by decide) hstep
    unfold scan_comparisons
    simp only [hlad]
    show (0, 1) ∈
      (scanLog (scanSim [[0], [0], [0]] 17 (7 / 10)) [1] 3 ⟨0, ∅⟩).2.2.2
    rw [hlog]
    show (0, 1) ∈ innerComps (scanSim [[0], [0], [0]] 17 (7 / 10))
      (⟨0, ∅⟩ : ScanState).base (candidatesOf [1] 3 (⟨0, ∅⟩ : ScanState).base)
    show (0, 1) ∈ [((0 : Nat), (1 : Nat))]
    simp)
